import Mathlib

/-!
Verification of the RFM feature-engineering and implicit-rating pipelines.

This file is a shallow embedding, in Lean 4, of the two hand-written data
transformations of the `aml-notebook-tutorials` repository:

* the RFM (Recency/Frequency/Monetary) feature-engineering pipeline of the
  customer-lifetime-value notebook: CustomerID null-row elimination, the
  date-window filter (`InvoiceDate < 2011-12-01`), the outlier filters
  (`Quantity > 0`, `UnitPrice > 0`, `Quantity < 30`, `UnitPrice < 30`),
  the period assignment (`get_period`), the `groupby(['CustomerID',
  'HalfYear', 'NextHalfYear'])` aggregation (sum of `Amount`, max of
  `InvoiceDate`, nunique of `InvoiceNo`), the `recency` computation, and
  the label self-join (`pd.merge(..., how='left')` followed by the
  `isnan(M_Next) == False` filter);

* the implicit-rating derivation of the movie-recommendations notebook:
  `groupby(['MovieId', 'UserId', 'Action']).count()`, the nested-dict
  aggregation of per-pair action counts, the weighted raw score
  (`buy: 100, addToCart: 50, details: 15`), the running maximum
  `max_rating`, and the normalisation `Rating = 10 * RawRating / max_rating`.

Modelling conventions:

* Timestamps are modelled by the day number (an integer) of their date
  portion.  The notebook only ever uses the date portion: `get_period`
  and `recency` call `.date()`, and the window filter compares against a
  midnight boundary (`InvoiceDate < dt.date(2011, 12, 1)` holds exactly
  when the date portion is at most 2011-11-30).  The `max` aggregation
  commutes with taking the date portion (timestamps order lexicographically
  by date then time of day), so aggregating the date numbers with `max`
  is faithful.
* Day numbers count days from 2011-01-01 (day 0); 2011 is not a leap year.
* Numeric columns (`Quantity`, `UnitPrice`, `Amount`, ratings) are modelled
  by `ℚ`.  All values the claims mention are exactly representable in
  binary floating point and the operations involved (integer products and
  sums, one final division) round identically, so the exact-arithmetic
  model agrees with the float computation on every property stated below.
* Dataframes are modelled by lists of rows; `groupby` keys are sorted, as
  pandas sorts group keys by default.
-/

/-! ## Generic list helpers: association lists, insertion sort, flat map -/

/-- First value stored under key `k` in an association list, as a Python
`dict` lookup (`d[k]`) would find it. -/
def lookupA {κ β : Type} [DecidableEq κ] (k : κ) : List (κ × β) → Option β
  | [] => none
  | (k', v) :: rest => if k' = k then some v else lookupA k rest

/-- Store `v` under key `k`, as a Python `dict` assignment (`d[k] = v`)
would: an existing binding is replaced in place, a new key is appended at
the end (Python dicts preserve insertion order). -/
def setA {κ β : Type} [DecidableEq κ] (k : κ) (v : β) : List (κ × β) → List (κ × β)
  | [] => [(k, v)]
  | (k', v') :: rest => if k' = k then (k, v) :: rest else (k', v') :: setA k v rest

/-- Insert `x` into `l` before the first element `y` with `¬ le x y`. -/
def insertLe {α : Type} (le : α → α → Bool) (x : α) : List α → List α
  | [] => [x]
  | y :: ys => if le x y then x :: y :: ys else y :: insertLe le x ys

/-- Insertion sort by the Boolean relation `le`; used to model the sorted
group keys produced by pandas `groupby`. -/
def sortLe {α : Type} (le : α → α → Bool) : List α → List α
  | [] => []
  | x :: xs => insertLe le x (sortLe le xs)

/-- Concatenation of `f` over `l`; the list-comprehension/flat-map shape
used to model joins and nested iteration. -/
def listBind {α β : Type} (l : List α) (f : α → List β) : List β :=
  match l with
  | [] => []
  | x :: xs => f x ++ listBind xs f

/-! ## Calendar: day numbers for 2011 dates -/

/-- Days of 2011 elapsed before the first day of month `m` (2011 is not a
leap year). -/
def daysBefore2011 : ℕ → ℕ
  | 1 => 0
  | 2 => 31
  | 3 => 59
  | 4 => 90
  | 5 => 120
  | 6 => 151
  | 7 => 181
  | 8 => 212
  | 9 => 243
  | 10 => 273
  | 11 => 304
  | 12 => 334
  | _ => 0

/-- Day number (days since 2011-01-01) of the 2011 calendar date `m`-`d`. -/
def mkDate2011 (m d : ℕ) : ℤ :=
  (daysBefore2011 m : ℤ) + (d : ℤ) - 1

/-- `dt.date(2011, 6, 1)`, the half-year cutoff used by `get_period`. -/
def cutoffDate : ℤ := mkDate2011 6 1

/-- `dt.date(2011, 12, 1)`, the exclusive upper bound of the data window
(`data = data[data['InvoiceDate'] < dt.date(2011, 12, 1)]`). -/
def windowEnd : ℤ := mkDate2011 12 1

/-- `dt.date(2011, 5, 31)`, the reference end date for period 1 in `recency`. -/
def refDate1 : ℤ := mkDate2011 5 31

/-- `dt.date(2011, 11, 30)`, the reference end date for period 2 in `recency`. -/
def refDate2 : ℤ := mkDate2011 11 30

/-! ## RFM pipeline: data model -/

/-- A row of `OnlineRetail.csv` as loaded: `CustomerID` may be missing
(`NaN`), modelled by `Option`. -/
structure Transaction where
  customerId : Option ℤ
  invoiceDate : ℤ
  quantity : ℚ
  unitPrice : ℚ
  invoiceNo : ℕ
deriving DecidableEq

/-- A transaction after the `CustomerID` null-drop and integer conversion. -/
structure Txn where
  customerId : ℤ
  invoiceDate : ℤ
  quantity : ℚ
  unitPrice : ℚ
  invoiceNo : ℕ
deriving DecidableEq

/-- `data = data[np.isnan(data.CustomerID) == False]` followed by
`pd.to_numeric(..., downcast='integer')`. -/
def dropMissingCustomer (rows : List Transaction) : List Txn :=
  rows.filterMap fun t =>
    t.customerId.map fun c => ⟨c, t.invoiceDate, t.quantity, t.unitPrice, t.invoiceNo⟩

/-- `data = data[data['InvoiceDate'] < dt.date(2011, 12, 1)]`. -/
def windowFilter (rows : List Txn) : List Txn :=
  rows.filter fun t => t.invoiceDate < windowEnd

/-- The four outlier filters, in source order:
`Quantity > 0`, `UnitPrice > 0`, `Quantity < 30`, `UnitPrice < 30`. -/
def outlierFilter (rows : List Txn) : List Txn :=
  ((((rows.filter fun t => 0 < t.quantity).filter
      fun t => 0 < t.unitPrice).filter
      fun t => t.quantity < 30).filter
      fun t => t.unitPrice < 30)

/-- The Period Assigner `get_period`: period 1 for dates strictly before
2011-06-01, else period 2. -/
def get_period (d : ℤ) : ℕ :=
  if d < cutoffDate then 1 else 2

/-- A cleaned transaction with the derived columns `HalfYear`,
`NextHalfYear` and `Amount`. -/
structure PTxn where
  customerId : ℤ
  invoiceDate : ℤ
  quantity : ℚ
  unitPrice : ℚ
  invoiceNo : ℕ
  halfYear : ℕ
  nextHalfYear : ℕ
  amount : ℚ
deriving DecidableEq

/-- `clean_data['HalfYear'] = ...apply(get_period)`;
`clean_data['NextHalfYear'] = clean_data['HalfYear'] + 1`;
`clean_data['Amount'] = ...Quantity * UnitPrice`. -/
def addPeriodCols (rows : List Txn) : List PTxn :=
  rows.map fun t =>
    ⟨t.customerId, t.invoiceDate, t.quantity, t.unitPrice, t.invoiceNo,
     get_period t.invoiceDate, get_period t.invoiceDate + 1,
     t.quantity * t.unitPrice⟩

/-- The cleaned, period-labelled transaction table: everything the notebook
does to `clean_data` before the `groupby`. -/
def cleanRows (rows : List Transaction) : List PTxn :=
  addPeriodCols (outlierFilter (windowFilter (dropMissingCustomer rows)))

/-- The `groupby` key `(CustomerID, HalfYear, NextHalfYear)`. -/
abbrev GKey := ℤ × ℕ × ℕ

/-- Key of a cleaned row. -/
def keyOf (t : PTxn) : GKey := (t.customerId, t.halfYear, t.nextHalfYear)

/-- Lexicographic order on group keys (pandas sorts group keys). -/
def gkeyLe (a b : GKey) : Bool :=
  a.1 < b.1 || (a.1 = b.1 && (a.2.1 < b.2.1 ||
    (a.2.1 = b.2.1 && (a.2.2 < b.2.2 || a.2.2 = b.2.2))))

/-- The distinct group keys, in sorted order. -/
def groupKeys (rows : List PTxn) : List GKey :=
  sortLe gkeyLe (rows.map keyOf).dedup

/-- The rows of the group with key `k`. -/
def groupOf (rows : List PTxn) (k : GKey) : List PTxn :=
  rows.filter fun r => keyOf r = k

/-- `max` aggregation of `InvoiceDate` over a group (`0` on the empty list,
which no group ever is). -/
def maxDate (g : List PTxn) : ℤ :=
  match g with
  | [] => 0
  | h :: t => t.foldl (fun a r => max a r.invoiceDate) h.invoiceDate

/-- One row of `rfm_data` before recency: the `agg` result for one group
(`Amount: sum`, `InvoiceDate: max`, `InvoiceNo: nunique`). -/
structure RFMAgg where
  customerId : ℤ
  halfYear : ℕ
  nextHalfYear : ℕ
  M : ℚ
  lastInvoiceDate : ℤ
  F : ℕ
deriving DecidableEq

/-- Aggregate one group. -/
def aggOf (rows : List PTxn) (k : GKey) : RFMAgg :=
  let g := groupOf rows k
  ⟨k.1, k.2.1, k.2.2, (g.map fun r => r.amount).sum, maxDate g,
   ((g.map fun r => r.invoiceNo).dedup).length⟩

/-- `rfm_data = clean_data.groupby(['CustomerID', 'HalfYear',
'NextHalfYear'], as_index=False).agg(aggregations)`. -/
def rfm_data (rows : List PTxn) : List RFMAgg :=
  (groupKeys rows).map (aggOf rows)

/-- The `recency` function of the notebook: reference end date 2011-05-31
for period 1, 2011-11-30 otherwise, minus the group's last invoice date. -/
def recency (a : RFMAgg) : ℤ :=
  (if a.halfYear = 1 then refDate1 else refDate2) - a.lastInvoiceDate

/-- A row of the named RFM table
`rfm_data[['CustomerID', 'HalfYear', 'NextHalfYear', 'R', 'F', 'M']]`. -/
structure RFMRow where
  customerId : ℤ
  halfYear : ℕ
  nextHalfYear : ℕ
  R : ℤ
  F : ℕ
  M : ℚ
deriving DecidableEq

/-- `rfm_data['R'] = rfm_data.apply(recency, axis=1)` plus the renames
`InvoiceNo → F`, `Amount → M` and the column selection. -/
def addRecency (l : List RFMAgg) : List RFMRow :=
  l.map fun a => ⟨a.customerId, a.halfYear, a.nextHalfYear, recency a, a.F, a.M⟩

/-- The full RFM table computed from the raw transaction list. -/
def rfmTable (rows : List Transaction) : List RFMRow :=
  addRecency (rfm_data (cleanRows rows))

/-! ## Label Joiner -/

/-- A row of the merged table after the column selection
`[['R', 'F', 'M', 'M_Next']]`; `M_Next` is `none` where the left join
found no match (pandas `NaN`). -/
structure MergedRow where
  R : ℤ
  F : ℕ
  M : ℚ
  M_Next : Option ℚ
deriving DecidableEq

/-- The right-table matches of a left row under the join condition
`left.CustomerID = right.CustomerID ∧ left.NextHalfYear = right.HalfYear`. -/
def matchesOf (tbl : List RFMRow) (l : RFMRow) : List RFMRow :=
  tbl.filter fun r => r.customerId = l.customerId ∧ r.halfYear = l.nextHalfYear

/-- `pd.merge(rfm_data, rfm_data, left_on=['CustomerID', 'NextHalfYear'],
right_on=['CustomerID', 'HalfYear'], how='left', suffixes=['', '_Next'])`,
restricted to the columns the notebook keeps: a left row with no match
survives once with `M_Next = NaN`, a left row with matches once per match. -/
def mergeLeft (tbl : List RFMRow) : List MergedRow :=
  listBind tbl fun l =>
    match matchesOf tbl l with
    | [] => [⟨l.R, l.F, l.M, none⟩]
    | ms => ms.map fun r => ⟨l.R, l.F, l.M, some r.M⟩

/-- `rfm_data_final = rfm_data_final[np.isnan(rfm_data_final['M_Next'])
== False]` applied to the merged, column-selected table. -/
def rfm_data_final (tbl : List RFMRow) : List MergedRow :=
  (mergeLeft tbl).filter fun r => r.M_Next.isSome

/-- The whole feature-engineering pipeline, raw events to labelled table. -/
def pipeline (rows : List Transaction) : List MergedRow :=
  rfm_data_final (rfmTable rows)

/-! ## The end-to-end example input -/

/-- The two-transaction example: customer `C1` buys quantity 2 at price 5
on 2011-03-01 (invoice 1001) and quantity 1 at price 20 on 2011-07-10
(invoice 1002). -/
def exTransactions : List Transaction :=
  [⟨some 1, mkDate2011 3 1, 2, 5, 1001⟩,
   ⟨some 1, mkDate2011 7 10, 1, 20, 1002⟩]

/-- The key columns of an RFM row, for uniqueness statements. -/
def aggKeyOf (a : RFMRow) : GKey := (a.customerId, a.halfYear, a.nextHalfYear)

/-! ## Implicit Rating Deriver: data model

The movie notebook aggregates the action log with
`counts = data.groupby(['MovieId', 'UserId', 'Action'])['Action'].count()`
and then folds over `counts.index` (sorted by pandas), building a nested
dict `agg_data : MovieId → UserId → {buy, addToCart, details} → count`.

One translation note on the loop body: in the `else` branch (movie already
present) the store `movie_agg_data[i[1]] = user_agg_data` is executed even
when the user key is already present, in which case `user_agg_data` still
refers to the object from an earlier iteration.  Because `counts.index` is
sorted, all index entries of one `(movie, user)` pair are consecutive, so
in that case `user_agg_data` is exactly the dict already stored under that
key and the store is a no-op.  The embedding therefore performs
"ensure the pair is present (fresh zero counts if new), then add the
group's count to the action's entry", which is what the loop computes. -/

/-- A row of `movie_customer_actions.csv`.  The action is kept as a raw
string: an action outside the three known kinds would raise a `KeyError`
in `agg_data[i[0]][i[1]][i[2]] += counts[i]`, modelled by `Except.error`. -/
structure Event where
  movieId : ℤ
  userId : ℤ
  action : String
deriving DecidableEq

/-- A `groupby(['MovieId', 'UserId', 'Action'])` key. -/
abbrev Triple := ℤ × ℤ × String

/-- The group key of an event. -/
def tripleOf (e : Event) : Triple := (e.movieId, e.userId, e.action)

/-- Lexicographic order on character lists: code-point string comparison,
as Python compares the strings of the `Action` column. -/
def charsLt : List Char → List Char → Bool
  | [], [] => false
  | [], _ :: _ => true
  | _ :: _, [] => false
  | a :: as, b :: bs => if a < b then true else if b < a then false else charsLt as bs

/-- Code-point order on strings. -/
def strLt (a b : String) : Bool := charsLt a.data b.data

/-- Lexicographic order on group keys (pandas sorts the index). -/
def tripleLe (a b : Triple) : Bool :=
  a.1 < b.1 || (a.1 = b.1 && (a.2.1 < b.2.1 ||
    (a.2.1 = b.2.1 && (strLt a.2.2 b.2.2 || a.2.2 = b.2.2))))

/-- `counts.index`: the distinct group keys, in sorted order. -/
def countsIndex (log : List Event) : List Triple :=
  sortLe tripleLe (log.map tripleOf).dedup

/-- `counts[i]`: the size of the group with key `t`. -/
def countOf (log : List Event) (t : Triple) : ℕ :=
  (log.filter fun e => tripleOf e = t).length

/-- The per-pair action-count dict
`{'buy': _, 'addToCart': _, 'details': _}`. -/
structure ActionCounts where
  buy : ℕ
  addToCart : ℕ
  details : ℕ
deriving DecidableEq

/-- The fresh `user_agg_data` dict `{'buy': 0, 'addToCart': 0, 'details': 0}`. -/
def initCounts : ActionCounts := ⟨0, 0, 0⟩

/-- `agg_data[m][u][a] += n`: a `KeyError` for any action string other
than the three initialised keys. -/
def ActionCounts.bump (c : ActionCounts) (a : String) (n : ℕ) :
    Except String ActionCounts :=
  if a = "buy" then .ok { c with buy := c.buy + n }
  else if a = "addToCart" then .ok { c with addToCart := c.addToCart + n }
  else if a = "details" then .ok { c with details := c.details + n }
  else .error ("KeyError: " ++ a)

/-- The inner dict `movie_agg_data`, insertion-ordered. -/
abbrev UserAgg := List (ℤ × ActionCounts)

/-- The outer dict `agg_data`, insertion-ordered. -/
abbrev Agg := List (ℤ × UserAgg)

/-- The branch structure of the loop body before the `+=`: return the
movie's inner dict, with the user's entry freshly initialised when the
pair `(m, u)` has not been seen. -/
def ensurePair (st : Agg) (m u : ℤ) : UserAgg :=
  match lookupA m st with
  | none => setA u initCounts []
  | some users =>
    match lookupA u users with
    | none => setA u initCounts users
    | some _ => users

/-- One iteration of the aggregation loop, for index entry `t` with group
size `n`. -/
def stepTriple (st : Agg) (t : Triple) (n : ℕ) : Except String Agg :=
  let users := ensurePair st t.1 t.2.1
  let cts := (lookupA t.2.1 users).getD initCounts
  (cts.bump t.2.2 n).map fun cts' => setA t.1 (setA t.2.1 cts' users) st

/-- The aggregation loop `for i in counts.index: ...`, iterating the
index entries in order and threading the state; the first `KeyError`
aborts the run. -/
def loopAgg (log : List Event) : List Triple → Agg → Except String Agg
  | [], st => .ok st
  | t :: ts, st =>
    match stepTriple st t (countOf log t) with
    | .error e => .error e
    | .ok st₁ => loopAgg log ts st₁

/-- The whole aggregation: run the loop over the sorted index, starting
from the empty dict. -/
def buildAgg (log : List Event) : Except String Agg :=
  loopAgg log (countsIndex log) []

/-- The fixed weight table `{'buy': 100, 'addToCart': 50, 'details': 15}`. -/
def weights : List (String × ℕ) :=
  [("buy", 100), ("addToCart", 50), ("details", 15)]

/-- `agg_data[movie_key][user_key][weights_key]` for a weight-table key. -/
def countFor (c : ActionCounts) (k : String) : ℕ :=
  if k = "buy" then c.buy
  else if k = "addToCart" then c.addToCart
  else if k = "details" then c.details
  else 0

/-- The inner loop `for weights_key in weights.keys(): raw_rating += ...`. -/
def rawScore (c : ActionCounts) : ℕ :=
  weights.foldl (fun acc kw => acc + countFor c kw.1 * kw.2) 0

/-- The `raw_ratings` list `[movie_key, user_key, raw_rating]`, built by
iterating the nested dicts in insertion order. -/
def raw_ratings (agg : Agg) : List (ℤ × ℤ × ℕ) :=
  listBind agg fun mu => mu.2.map fun uc => (mu.1, uc.1, rawScore uc.2)

/-- The running maximum `max_rating`, initialised to `0` and updated by
`if raw_rating > max_rating`. -/
def max_rating (rr : List (ℤ × ℤ × ℕ)) : ℕ :=
  rr.foldl (fun acc r => if acc < r.2.2 then r.2.2 else acc) 0

/-- A row of the final `ratings` dataframe. -/
structure RatingRow where
  movieId : ℤ
  userId : ℤ
  rawRating : ℕ
  rating : ℚ
deriving DecidableEq

/-- `ratings['Rating'] = float(10) * ratings['RawRating'] / max_rating`.
Exact rationals stand in for Python floats: every property stated below
(0–10 bounds, the exact value 10 at the maximum, the value on the worked
example) is invariant under that change because rounding is monotone and
`10 * max / max` is exact in binary floating point as well. -/
def ratingsTable (rr : List (ℤ × ℤ × ℕ)) : List RatingRow :=
  rr.map fun r => ⟨r.1, r.2.1, r.2.2, (10 : ℚ) * (r.2.2 : ℚ) / (max_rating rr : ℚ)⟩

/-- The whole Implicit Rating Deriver, action log to ratings table. -/
def deriveRatings (log : List Event) : Except String (List RatingRow) :=
  (buildAgg log).map fun agg => ratingsTable (raw_ratings agg)

/-- Number of `(m, u, a)` actions recorded in the log. -/
def logCount (log : List Event) (m u : ℤ) (a : String) : ℕ :=
  countOf log (m, u, a)

/-- The `(item, user)` key of a rating row. -/
def pairKeyOf (r : RatingRow) : ℤ × ℤ := (r.movieId, r.userId)

/-- The dataset-wide maximum raw score, read off the output table. -/
def maxRawOf (rs : List RatingRow) : ℕ :=
  rs.foldl (fun acc r => if acc < r.rawRating then r.rawRating else acc) 0

/-- The worked example log: pair `(I1, U1)` with two `details` (view)
actions and one `addToCart` action. -/
def exLog : List Event :=
  [⟨1, 1, "details"⟩, ⟨1, 1, "details"⟩, ⟨1, 1, "addToCart"⟩]

/-! ## Specification-side views of the aggregation state -/

/-- The counts stored for pair `(m, u)`, reading an absent pair as the
all-zero dict. -/
def cntAt (st : Agg) (m u : ℤ) : ActionCounts :=
  ((lookupA m st).bind fun users => lookupA u users).getD initCounts

/-- Whether pair `(m, u)` is present in the aggregation state. -/
def pairMemB (st : Agg) (m u : ℤ) : Bool :=
  ((lookupA m st).bind fun users => lookupA u users).isSome

/-- Well-formedness of the nested dicts: distinct movie keys, and distinct
user keys within each movie. -/
def aggNodup (st : Agg) : Prop :=
  (st.map Prod.fst).Nodup ∧ ∀ mu ∈ st, (mu.2.map Prod.fst).Nodup

/-- The count contributed by the processed prefix `P` of the index for
triple `t`: the group size if `t` was already processed, else `0`. -/
def pcount (log : List Event) (P : List Triple) (t : Triple) : ℕ :=
  if t ∈ P then countOf log t else 0

/-- Loop invariant of the aggregation fold after processing the prefix `P`
of `counts.index`: the dict keys are distinct, exactly the pairs of `P`
are present, and each stored action count equals the processed count. -/
def AggInv (log : List Event) (P : List Triple) (st : Agg) : Prop :=
  aggNodup st ∧
  (∀ m u : ℤ, pairMemB st m u = true ↔ ∃ a : String, (m, u, a) ∈ P) ∧
  (∀ m u : ℤ, (cntAt st m u).buy = pcount log P (m, u, "buy") ∧
    (cntAt st m u).addToCart = pcount log P (m, u, "addToCart") ∧
    (cntAt st m u).details = pcount log P (m, u, "details"))

/-- The `(movie, user)` pairs stored in the aggregation state, in
iteration order. -/
def aggPairs (st : Agg) : List (ℤ × ℤ) :=
  listBind st fun mu => mu.2.map fun uc => (mu.1, uc.1)

/-! ## Helper lemmas on the generic list functions -/

theorem mem_insertLe {α : Type} (le : α → α → Bool) (x : α) (l : List α) (a : α) :
    a ∈ insertLe le x l ↔ a = x ∨ a ∈ l := by
  induction l with
  | nil => simp [insertLe]
  | cons y ys ih =>
    by_cases h : le x y = true
    · simp [insertLe, h]
    · simp only [insertLe, h, Bool.false_eq_true, if_false, List.mem_cons, ih]
      tauto

theorem insertLe_perm {α : Type} (le : α → α → Bool) (x : α) (l : List α) :
    List.Perm (insertLe le x l) (x :: l) := by
  induction l with
  | nil => simp [insertLe]
  | cons y ys ih =>
    by_cases h : le x y = true
    · simp [insertLe, h]
    · simp only [insertLe, h, Bool.false_eq_true, if_false]
      exact (List.Perm.cons y ih).trans (List.Perm.swap x y ys)

theorem sortLe_perm {α : Type} (le : α → α → Bool) (l : List α) :
    List.Perm (sortLe le l) l := by
  induction l with
  | nil => simp [sortLe]
  | cons x xs ih =>
    exact (insertLe_perm le x (sortLe le xs)).trans (List.Perm.cons x ih)

theorem mem_sortLe {α : Type} (le : α → α → Bool) (l : List α) (a : α) :
    a ∈ sortLe le l ↔ a ∈ l :=
  (sortLe_perm le l).mem_iff

theorem nodup_sortLe {α : Type} (le : α → α → Bool) (l : List α) (h : l.Nodup) :
    (sortLe le l).Nodup :=
  (sortLe_perm le l).nodup_iff.mpr h

theorem mem_listBind {α β : Type} (l : List α) (f : α → List β) (b : β) :
    b ∈ listBind l f ↔ ∃ a ∈ l, b ∈ f a := by
  induction l with
  | nil => simp [listBind]
  | cons x xs ih => simp [listBind, ih]

theorem filter_listBind {α β : Type} (l : List α) (f : α → List β) (p : β → Bool) :
    (listBind l f).filter p = listBind l fun a => (f a).filter p := by
  induction l with
  | nil => simp [listBind]
  | cons x xs ih => simp [listBind, List.filter_append, ih]

theorem listBind_congr {α β : Type} (l : List α) (f g : α → List β)
    (h : ∀ a ∈ l, f a = g a) : listBind l f = listBind l g := by
  induction l with
  | nil => simp [listBind]
  | cons x xs ih =>
    simp only [listBind, h x (List.mem_cons_self x xs)]
    rw [ih fun a ha => h a (List.mem_cons_of_mem x ha)]

theorem map_listBind {α β γ : Type} (l : List α) (f : α → List β) (g : β → γ) :
    (listBind l f).map g = listBind l fun a => (f a).map g := by
  induction l with
  | nil => simp [listBind]
  | cons x xs ih => simp [listBind, ih]

/-! ## Structural lemmas on the RFM pipeline -/

theorem mem_cleanRows {rows : List Transaction} {r : PTxn} (h : r ∈ cleanRows rows) :
    0 < r.quantity ∧ r.quantity < 30 ∧ 0 < r.unitPrice ∧ r.unitPrice < 30 ∧
    r.invoiceDate < windowEnd ∧ r.halfYear = get_period r.invoiceDate ∧
    r.nextHalfYear = r.halfYear + 1 ∧ r.amount = r.quantity * r.unitPrice := by
  simp only [cleanRows, addPeriodCols, List.mem_map] at h
  obtain ⟨t, ht, rfl⟩ := h
  simp only [outlierFilter, windowFilter, List.mem_filter,
    decide_eq_true_eq] at ht
  exact ⟨ht.1.1.1.2, ht.1.2, ht.1.1.2, ht.2, ht.1.1.1.1.2, rfl, rfl, rfl⟩

theorem nodup_groupKeys (rows : List PTxn) : (groupKeys rows).Nodup :=
  nodup_sortLe _ _ (List.nodup_dedup _)

theorem mem_groupKeys {rows : List PTxn} {k : GKey} :
    k ∈ groupKeys rows ↔ ∃ r ∈ rows, keyOf r = k := by
  rw [groupKeys, mem_sortLe, List.mem_dedup, List.mem_map]

theorem mem_groupOf {rows : List PTxn} {k : GKey} {r : PTxn} :
    r ∈ groupOf rows k ↔ r ∈ rows ∧ keyOf r = k := by
  simp [groupOf, List.mem_filter]

theorem groupOf_ne_nil {rows : List PTxn} {k : GKey} (h : k ∈ groupKeys rows) :
    groupOf rows k ≠ [] := by
  rw [mem_groupKeys] at h
  obtain ⟨r, hr, hk⟩ := h
  have hmem : r ∈ groupOf rows k := mem_groupOf.mpr ⟨hr, hk⟩
  intro hnil
  rw [hnil] at hmem
  exact absurd hmem (List.not_mem_nil r)

theorem foldl_max_le (l : List PTxn) (a B : ℤ) (ha : a ≤ B)
    (h : ∀ r ∈ l, r.invoiceDate ≤ B) :
    l.foldl (fun acc r => max acc r.invoiceDate) a ≤ B := by
  induction l generalizing a with
  | nil => exact ha
  | cons x xs ih =>
    exact ih _ (max_le ha (h x (by simp))) fun r hr => h r (by simp [hr])

theorem maxDate_le {g : List PTxn} {B : ℤ} (hne : g ≠ [])
    (h : ∀ r ∈ g, r.invoiceDate ≤ B) : maxDate g ≤ B := by
  match g, hne with
  | x :: xs, _ =>
    exact foldl_max_le xs x.invoiceDate B (h x (by simp))
      fun r hr => h r (by simp [hr])

theorem get_period_eq_one_iff (d : ℤ) : get_period d = 1 ↔ d < cutoffDate := by
  by_cases h : d < cutoffDate <;> simp [get_period, h]

theorem get_period_one_or_two (d : ℤ) : get_period d = 1 ∨ get_period d = 2 := by
  by_cases h : d < cutoffDate <;> simp [get_period, h]

theorem mem_rfmTable {rows : List Transaction} {a : RFMRow}
    (h : a ∈ rfmTable rows) :
    ∃ k ∈ groupKeys (cleanRows rows),
      a = ⟨k.1, k.2.1, k.2.2, recency (aggOf (cleanRows rows) k),
           (aggOf (cleanRows rows) k).F, (aggOf (cleanRows rows) k).M⟩ := by
  simp only [rfmTable, addRecency, rfm_data, List.map_map, List.mem_map,
    Function.comp] at h
  obtain ⟨k, hk, rfl⟩ := h
  exact ⟨k, hk, rfl⟩

theorem rfmTable_map_key (rows : List Transaction) :
    (rfmTable rows).map aggKeyOf = groupKeys (cleanRows rows) := by
  simp only [rfmTable, addRecency, rfm_data, List.map_map]
  have h : ∀ k ∈ groupKeys (cleanRows rows),
      (aggKeyOf ∘ (fun a : RFMAgg =>
          (⟨a.customerId, a.halfYear, a.nextHalfYear, recency a, a.F, a.M⟩ : RFMRow)) ∘
        aggOf (cleanRows rows)) k = id k := fun k _ => rfl
  rw [List.map_congr_left h, List.map_id]

theorem nodup_rfmTable_keys (rows : List Transaction) :
    ((rfmTable rows).map aggKeyOf).Nodup := by
  rw [rfmTable_map_key]
  exact nodup_groupKeys _

theorem mem_rfmTable_props {rows : List Transaction} {a : RFMRow}
    (h : a ∈ rfmTable rows) :
    (a.halfYear = 1 ∨ a.halfYear = 2) ∧ a.nextHalfYear = a.halfYear + 1 := by
  obtain ⟨k, hk, rfl⟩ := mem_rfmTable h
  obtain ⟨r, hr, hkey⟩ := mem_groupKeys.mp hk
  obtain ⟨-, -, -, -, -, hhy, hnhy, -⟩ := mem_cleanRows hr
  have h1 : r.halfYear = k.2.1 := congrArg (fun p : GKey => p.2.1) hkey
  have h2 : r.nextHalfYear = k.2.2 := congrArg (fun p : GKey => p.2.2) hkey
  constructor
  · rw [← h1, hhy]
    exact get_period_one_or_two _
  · show k.2.2 = k.2.1 + 1
    rw [← h1, ← h2, hnhy]

theorem aggOf_F_pos {rows : List Transaction} {k : GKey}
    (hk : k ∈ groupKeys (cleanRows rows)) : 1 ≤ (aggOf (cleanRows rows) k).F := by
  have hne := groupOf_ne_nil hk
  show 1 ≤ ((groupOf (cleanRows rows) k).map fun r => r.invoiceNo).dedup.length
  have hmap : ((groupOf (cleanRows rows) k).map fun r => r.invoiceNo) ≠ [] := by
    simp only [ne_eq, List.map_eq_nil_iff]
    exact hne
  have hdedup : ((groupOf (cleanRows rows) k).map fun r => r.invoiceNo).dedup ≠ [] := by
    simp only [ne_eq, List.dedup_eq_nil]
    exact hmap
  have := List.length_pos.mpr hdedup
  omega

theorem aggOf_M_pos {rows : List Transaction} {k : GKey}
    (hk : k ∈ groupKeys (cleanRows rows)) : 0 < (aggOf (cleanRows rows) k).M := by
  have hne := groupOf_ne_nil hk
  show 0 < ((groupOf (cleanRows rows) k).map fun r => r.amount).sum
  apply List.sum_pos
  · intro x hx
    simp only [List.mem_map] at hx
    obtain ⟨r, hr, rfl⟩ := hx
    obtain ⟨hq, -, hp, -, -, -, -, ham⟩ := mem_cleanRows (mem_groupOf.mp hr).1
    rw [ham]
    exact mul_pos hq hp
  · simp only [ne_eq, List.map_eq_nil_iff]
    exact hne

theorem aggOf_R_nonneg {rows : List Transaction} {k : GKey}
    (hk : k ∈ groupKeys (cleanRows rows)) :
    0 ≤ recency (aggOf (cleanRows rows) k) := by
  have hne := groupOf_ne_nil hk
  show 0 ≤ (if k.2.1 = 1 then refDate1 else refDate2) -
    maxDate (groupOf (cleanRows rows) k)
  by_cases h1 : k.2.1 = 1
  · have hdate : ∀ r ∈ groupOf (cleanRows rows) k, r.invoiceDate ≤ refDate1 := by
      intro r hr
      obtain ⟨hrm, hkey⟩ := mem_groupOf.mp hr
      obtain ⟨-, -, -, -, -, hhy, -, -⟩ := mem_cleanRows hrm
      have hh : r.halfYear = 1 := by
        have := congrArg (fun p : GKey => p.2.1) hkey
        simpa [keyOf, h1] using this
      have hlt : r.invoiceDate < cutoffDate :=
        (get_period_eq_one_iff _).mp (by rw [← hhy]; exact hh)
      have href : refDate1 = cutoffDate - 1 := by decide
      omega
    have hmax := maxDate_le hne hdate
    rw [if_pos h1]
    omega
  · have hdate : ∀ r ∈ groupOf (cleanRows rows) k, r.invoiceDate ≤ refDate2 := by
      intro r hr
      obtain ⟨hrm, -⟩ := mem_groupOf.mp hr
      obtain ⟨-, -, -, -, hw, -, -, -⟩ := mem_cleanRows hrm
      have href : refDate2 = windowEnd - 1 := by decide
      omega
    have hmax := maxDate_le hne hdate
    rw [if_neg h1]
    omega

theorem rfmTable_example : rfmTable exTransactions =
    [⟨1, 1, 2, 91, 1, 10⟩, ⟨1, 2, 3, 143, 1, 20⟩] := by
  norm_num [rfmTable, addRecency, rfm_data, groupKeys, groupOf, aggOf, cleanRows,
    addPeriodCols, outlierFilter, windowFilter, dropMissingCustomer, keyOf,
    get_period, recency, maxDate, sortLe, insertLe, gkeyLe, mkDate2011, cutoffDate,
    windowEnd, refDate1, refDate2, daysBefore2011, exTransactions,
    List.dedup_cons_of_not_mem, List.filter]

theorem pipeline_example : pipeline exTransactions = [⟨91, 1, 10, some 20⟩] := by
  norm_num [pipeline, rfm_data_final, mergeLeft, matchesOf, listBind, rfmTable,
    addRecency, rfm_data, groupKeys, groupOf, aggOf, cleanRows,
    addPeriodCols, outlierFilter, windowFilter, dropMissingCustomer, keyOf,
    get_period, recency, maxDate, sortLe, insertLe, gkeyLe, mkDate2011, cutoffDate,
    windowEnd, refDate1, refDate2, daysBefore2011, exTransactions,
    List.dedup_cons_of_not_mem, List.filter]

theorem deriveRatings_example : deriveRatings exLog = Except.ok [⟨1, 1, 80, 10⟩] := by
  have h : buildAgg exLog = Except.ok [(1, [(1, ⟨0, 1, 2⟩)])] := by rfl
  have h80 : rawScore ⟨0, 1, 2⟩ = 80 := by decide
  simp only [deriveRatings, h, Except.map, ratingsTable, raw_ratings, listBind,
    List.map, List.append_nil, max_rating, List.foldl, h80]
  norm_num

/-! ## Lemmas on the Label Joiner -/

theorem length_filter_eq_le_one {α β : Type} [DecidableEq β] {l : List α} {f : α → β}
    (h : (l.map f).Nodup) (y : β) : (l.filter fun x => f x = y).length ≤ 1 := by
  induction l with
  | nil => simp
  | cons x xs ih =>
    simp only [List.map_cons, List.nodup_cons, List.mem_map] at h
    by_cases hx : f x = y
    · have hrest : (xs.filter fun x' => f x' = y) = [] := by
        rw [List.filter_eq_nil_iff]
        intro a ha
        simp only [decide_eq_true_eq]
        intro hay
        exact h.1 ⟨a, ha, by rw [hay, hx]⟩
      simp [List.filter_cons, hx, hrest]
    · rw [List.filter_cons, if_neg (by simp [hx])]
      exact ih h.2

theorem listBind_filter_of_nil {α β : Type} (l : List α) (p : α → Bool)
    (f : α → List β) (h : ∀ x ∈ l, p x = false → f x = []) :
    listBind l f = listBind (l.filter p) f := by
  induction l with
  | nil => rfl
  | cons x xs ih =>
    have ih' := ih fun a ha => h a (List.mem_cons_of_mem x ha)
    cases hp : p x
    · simp only [listBind, List.filter_cons, hp, if_false,
        h x (List.mem_cons_self x xs) hp, List.nil_append, Bool.false_eq_true]
      exact ih'
    · simp only [listBind, List.filter_cons, hp, if_true]
      rw [ih']

theorem groupKeys_nhy {rows : List Transaction} {k : GKey}
    (hk : k ∈ groupKeys (cleanRows rows)) : k.2.2 = k.2.1 + 1 := by
  obtain ⟨r, hr, hkey⟩ := mem_groupKeys.mp hk
  obtain ⟨-, -, -, -, -, -, hnhy, -⟩ := mem_cleanRows hr
  have h1 := congrArg (fun p : GKey => p.2.1) hkey
  have h2 := congrArg (fun p : GKey => p.2.2) hkey
  simp only [keyOf] at h1 h2
  omega

theorem rfmTable_nhy {rows : List Transaction} {a : RFMRow}
    (h : a ∈ rfmTable rows) : a.nextHalfYear = a.halfYear + 1 :=
  (mem_rfmTable_props h).2

theorem nodup_rfmTable_pairs (rows : List Transaction) :
    ((rfmTable rows).map fun a => (a.customerId, a.halfYear)).Nodup := by
  have hkeys := nodup_rfmTable_keys rows
  have heq : ((rfmTable rows).map fun a => (a.customerId, a.halfYear)) =
      ((rfmTable rows).map aggKeyOf).map fun k => (k.1, k.2.1) := by
    rw [List.map_map]
    rfl
  rw [heq]
  apply List.Nodup.map_on ?_ hkeys
  intro x hx y hy hxy
  obtain ⟨a, ha, rfl⟩ := List.mem_map.mp hx
  obtain ⟨b, hb, rfl⟩ := List.mem_map.mp hy
  have hna := rfmTable_nhy ha
  have hnb := rfmTable_nhy hb
  have h1 := congrArg Prod.fst hxy
  have h2 := congrArg Prod.snd hxy
  simp only [aggKeyOf] at h1 h2 ⊢
  exact Prod.ext h1 (Prod.ext h2 (by simp only [hna, hnb, h2]))

theorem mem_matchesOf {tbl : List RFMRow} {l r : RFMRow} :
    r ∈ matchesOf tbl l ↔
      r ∈ tbl ∧ r.customerId = l.customerId ∧ r.halfYear = l.nextHalfYear := by
  simp [matchesOf, List.mem_filter]

theorem matchesOf_length_le_one {rows : List Transaction} (l : RFMRow) :
    (matchesOf (rfmTable rows) l).length ≤ 1 := by
  have hcongr : matchesOf (rfmTable rows) l = (rfmTable rows).filter
      fun r => (fun a : RFMRow => (a.customerId, a.halfYear)) r =
        (l.customerId, l.nextHalfYear) := by
    rw [matchesOf]
    apply List.filter_congr
    intro r _
    simp [Prod.ext_iff]
  rw [hcongr]
  exact length_filter_eq_le_one (nodup_rfmTable_pairs rows) _

theorem rfm_data_final_eq (tbl : List RFMRow) :
    rfm_data_final tbl =
      listBind tbl fun l => (matchesOf tbl l).map fun r => ⟨l.R, l.F, l.M, some r.M⟩ := by
  rw [rfm_data_final, mergeLeft, filter_listBind]
  apply listBind_congr
  intro l _
  cases hm : matchesOf tbl l with
  | nil => simp
  | cons r ms =>
    rw [List.filter_map]
    rw [List.filter_eq_self.mpr fun a _ => by simp [Function.comp]]

theorem matchesOf_eq_nil_of_period_two {rows : List Transaction} {l : RFMRow}
    (hl : l ∈ rfmTable rows) (h2 : l.halfYear = 2) :
    matchesOf (rfmTable rows) l = [] := by
  rw [matchesOf, List.filter_eq_nil_iff]
  intro r hr
  simp only [decide_eq_true_eq, not_and]
  intro _ hrh
  have hln := rfmTable_nhy hl
  have hr12 := (mem_rfmTable_props hr).1
  rw [hln, h2] at hrh
  omega

theorem matchesOf_eq_nil_of_single_period {rows : List Transaction} {c : ℤ} {p : ℕ}
    (hc : ∀ a ∈ rfmTable rows, a.customerId = c → a.halfYear = p)
    {l : RFMRow} (hl : l ∈ rfmTable rows) (hlc : l.customerId = c) :
    matchesOf (rfmTable rows) l = [] := by
  rw [matchesOf, List.filter_eq_nil_iff]
  intro r hr
  simp only [decide_eq_true_eq, not_and]
  intro hrc hrh
  have hln := rfmTable_nhy hl
  have hlp := hc l hl hlc
  have hrp := hc r hr (by rw [hrc, hlc])
  rw [hln, hlp] at hrh
  rw [hrp] at hrh
  omega

/-! ## Claim theorems: RFM pipeline -/

/-- C3: for every input transaction set that has passed the date-window
and outlier filtering, every row emitted by the RFM Aggregator satisfies
Recency ≥ 0 (an integer number of days), Frequency ≥ 1, and Monetary > 0. -/
theorem rfm_aggregator_invariants (rows : List Transaction) :
    ∀ a ∈ rfmTable rows, 0 ≤ a.R ∧ 1 ≤ a.F ∧ 0 < a.M := by
  intro a ha
  obtain ⟨k, hk, rfl⟩ := mem_rfmTable ha
  exact ⟨aggOf_R_nonneg hk, aggOf_F_pos hk, aggOf_M_pos hk⟩

theorem rfm_aggregator_invariants_witness :
    0 ≤ (⟨1, 1, 2, 91, 1, 10⟩ : RFMRow).R ∧
    1 ≤ (⟨1, 1, 2, 91, 1, 10⟩ : RFMRow).F ∧
    0 < (⟨1, 1, 2, 91, 1, 10⟩ : RFMRow).M :=
  rfm_aggregator_invariants exTransactions ⟨1, 1, 2, 91, 1, 10⟩
    (by rw [rfmTable_example]; simp)

/-- C7: the Period Assigner returns period 1 exactly on timestamps whose
date is strictly before the cutoff 2011-06-01 and period 2 otherwise, so
the boundary date itself falls into the later bucket; and the derived
NextHalfYear column always equals HalfYear + 1. -/
theorem period_assigner_spec :
    (∀ d : ℤ, (get_period d = 1 ↔ d < cutoffDate)) ∧
    (∀ d : ℤ, cutoffDate ≤ d → get_period d = 2) ∧
    get_period cutoffDate = 2 ∧
    (∀ rows : List Txn, ∀ r ∈ addPeriodCols rows, r.nextHalfYear = r.halfYear + 1) := by
  refine ⟨get_period_eq_one_iff, ?_, ?_, ?_⟩
  · intro d hd
    simp [get_period, not_lt.mpr hd]
  · simp [get_period]
  · intro rows r hr
    simp only [addPeriodCols, List.mem_map] at hr
    obtain ⟨t, -, rfl⟩ := hr
    rfl

theorem period_assigner_spec_witness :
    get_period (mkDate2011 5 31) = 1 ∧ get_period (mkDate2011 6 1) = 2 :=
  ⟨(period_assigner_spec.1 _).mpr (by decide),
   period_assigner_spec.2.1 _ (by decide)⟩

/-- C9: the feature-engineering pipeline is deterministic — two runs on
the same unchanged input produce identical labelled tables (the embedded
pipeline is a pure function of its input; the notebook's transformation
chain uses no randomness before the train/test split). -/
theorem pipeline_deterministic (rows₁ rows₂ : List Transaction)
    (h : rows₁ = rows₂) : pipeline rows₁ = pipeline rows₂ := by rw [h]

theorem pipeline_deterministic_witness :
    pipeline exTransactions = pipeline exTransactions :=
  pipeline_deterministic exTransactions exTransactions rfl

/-- C1: for every input transaction set, every row of the Label Joiner's
output has a non-null Monetary_next label; the output is exactly one row
per (entity, period) aggregate whose matching (entity, period + 1)
aggregate exists (each left row has at most one join partner, because the
groupby emits at most one aggregate per key); and for an entity whose
aggregates all lie in a single period, every one of its aggregates has no
join partner, so it contributes zero output rows. -/
theorem label_join_complete (rows : List Transaction) :
    (∀ row ∈ pipeline rows, row.M_Next.isSome = true) ∧
    pipeline rows = (listBind (rfmTable rows) fun l =>
      (matchesOf (rfmTable rows) l).map fun r => ⟨l.R, l.F, l.M, some r.M⟩) ∧
    (∀ l ∈ rfmTable rows, (matchesOf (rfmTable rows) l).length ≤ 1) ∧
    (∀ c : ℤ, ∀ p : ℕ, (∀ a ∈ rfmTable rows, a.customerId = c → a.halfYear = p) →
      ∀ l ∈ rfmTable rows, l.customerId = c → matchesOf (rfmTable rows) l = []) := by
  refine ⟨?_, ?_, ?_, ?_⟩
  · intro row hrow
    rw [pipeline, rfm_data_final] at hrow
    exact (List.mem_filter.mp hrow).2
  · rw [pipeline]
    exact rfm_data_final_eq (rfmTable rows)
  · intro l _
    exact matchesOf_length_le_one l
  · intro c p hc l hl hlc
    exact matchesOf_eq_nil_of_single_period hc hl hlc

theorem label_join_complete_witness :
    (⟨91, 1, 10, some 20⟩ : MergedRow).M_Next.isSome = true :=
  (label_join_complete exTransactions).1 ⟨91, 1, 10, some 20⟩
    (by rw [pipeline_example]; simp)

/-- C10: every aggregate's period is 1 or 2; a period-2 aggregate (whose
next_period is 3) never finds a join partner; the groupby emits at most
one aggregate per (entity, period); consequently the final labelled table
is exactly the join output of the period-1 aggregates — so every labelled
row is derived from a period-1 aggregate — and each entity has at most
one period-1 aggregate, hence contributes at most one labelled row. -/
theorem period1_provenance (rows : List Transaction) :
    (∀ a ∈ rfmTable rows, a.halfYear = 1 ∨ a.halfYear = 2) ∧
    (∀ l ∈ rfmTable rows, l.halfYear = 2 → matchesOf (rfmTable rows) l = []) ∧
    ((rfmTable rows).map fun a => (a.customerId, a.halfYear)).Nodup ∧
    (pipeline rows = listBind ((rfmTable rows).filter fun a => a.halfYear = 1) fun l =>
      (matchesOf (rfmTable rows) l).map fun r => ⟨l.R, l.F, l.M, some r.M⟩) ∧
    (∀ c : ℤ, ((rfmTable rows).filter fun a =>
      a.customerId = c ∧ a.halfYear = 1).length ≤ 1) := by
  refine ⟨?_, ?_, nodup_rfmTable_pairs rows, ?_, ?_⟩
  · intro a ha
    exact (mem_rfmTable_props ha).1
  · intro l hl h2
    exact matchesOf_eq_nil_of_period_two hl h2
  · rw [pipeline, rfm_data_final_eq]
    apply listBind_filter_of_nil
    intro l hl hfalse
    have hne1 : ¬ l.halfYear = 1 := by
      intro h1
      rw [decide_eq_false_iff_not] at hfalse
      exact hfalse h1
    have h2 : l.halfYear = 2 := ((mem_rfmTable_props hl).1).resolve_left hne1
    rw [matchesOf_eq_nil_of_period_two hl h2]
    rfl
  · intro c
    have hcongr : ((rfmTable rows).filter fun a =>
        a.customerId = c ∧ a.halfYear = 1) = (rfmTable rows).filter
        fun a => (fun a : RFMRow => (a.customerId, a.halfYear)) a = (c, 1) := by
      apply List.filter_congr
      intro a _
      simp [Prod.ext_iff]
    rw [hcongr]
    exact length_filter_eq_le_one (nodup_rfmTable_pairs rows) _

theorem period1_provenance_witness :
    ((rfmTable exTransactions).filter fun a =>
      a.customerId = 1 ∧ a.halfYear = 1).length ≤ 1 :=
  (period1_provenance exTransactions).2.2.2.2 1

/-- C8: for every group (entity, period) in the RFM Aggregator's output,
Frequency equals the number of distinct invoice ids among the group's
input rows and Monetary equals the exact sum of quantity times unit price
over the group's input rows. -/
theorem rfm_aggregation_correct (rows : List Transaction) :
    ∀ a ∈ rfmTable rows,
      a.F = (((cleanRows rows).filter fun r =>
          r.customerId = a.customerId ∧ r.halfYear = a.halfYear).map
          fun r => r.invoiceNo).dedup.length ∧
      a.M = (((cleanRows rows).filter fun r =>
          r.customerId = a.customerId ∧ r.halfYear = a.halfYear).map
          fun r => r.quantity * r.unitPrice).sum := by
  intro a ha
  obtain ⟨k, hk, rfl⟩ := mem_rfmTable ha
  have hknhy := groupKeys_nhy hk
  have hpair : ((cleanRows rows).filter fun r =>
      r.customerId = k.1 ∧ r.halfYear = k.2.1) = groupOf (cleanRows rows) k := by
    rw [groupOf]
    apply List.filter_congr
    intro r hr
    obtain ⟨-, -, -, -, -, -, hnhy, -⟩ := mem_cleanRows hr
    simp only [decide_eq_decide, keyOf, Prod.ext_iff]
    constructor
    · rintro ⟨hc, hh⟩
      exact ⟨hc, hh, by omega⟩
    · rintro ⟨hc, hh, -⟩
      exact ⟨hc, hh⟩
  constructor
  · show (aggOf (cleanRows rows) k).F = _
    rw [hpair]
    rfl
  · show (aggOf (cleanRows rows) k).M = _
    rw [hpair]
    show ((groupOf (cleanRows rows) k).map fun r => r.amount).sum = _
    congr 1
    apply List.map_congr_left
    intro r hr
    exact (mem_cleanRows (mem_groupOf.mp hr).1).2.2.2.2.2.2.2

theorem rfm_aggregation_correct_witness :
    (⟨1, 1, 2, 91, 1, 10⟩ : RFMRow).F = (((cleanRows exTransactions).filter fun r =>
        r.customerId = (⟨1, 1, 2, 91, 1, 10⟩ : RFMRow).customerId ∧
        r.halfYear = (⟨1, 1, 2, 91, 1, 10⟩ : RFMRow).halfYear).map
        fun r => r.invoiceNo).dedup.length ∧
    (⟨1, 1, 2, 91, 1, 10⟩ : RFMRow).M = (((cleanRows exTransactions).filter fun r =>
        r.customerId = (⟨1, 1, 2, 91, 1, 10⟩ : RFMRow).customerId ∧
        r.halfYear = (⟨1, 1, 2, 91, 1, 10⟩ : RFMRow).halfYear).map
        fun r => r.quantity * r.unitPrice).sum :=
  rfm_aggregation_correct exTransactions ⟨1, 1, 2, 91, 1, 10⟩
    (by rw [rfmTable_example]; simp)

/-- C4: on exactly the transactions (C1, 2011-03-01, qty 2, price 5) and
(C1, 2011-07-10, qty 1, price 20) with period cutoff 2011-06-01, the RFM
Aggregator produces exactly two rows for entity C1 — period 1 with
Monetary 10 and period 2 with Monetary 20 — and the Label Joiner exactly
one training row (Recency 91 for period 1, Frequency 1, Monetary 10,
Monetary_next 20). -/
theorem end_to_end_example :
    rfmTable exTransactions = [⟨1, 1, 2, 91, 1, 10⟩, ⟨1, 2, 3, 143, 1, 20⟩] ∧
    pipeline exTransactions = [⟨91, 1, 10, some 20⟩] :=
  ⟨rfmTable_example, pipeline_example⟩

/-! ## Lemmas on association lists -/

theorem lookupA_setA_self {κ β : Type} [DecidableEq κ] (k : κ) (v : β)
    (l : List (κ × β)) : lookupA k (setA k v l) = some v := by
  induction l with
  | nil => simp [setA, lookupA]
  | cons x xs ih =>
    by_cases h : x.1 = k
    · simp [setA, h, lookupA]
    · simp only [setA]
      rw [if_neg (by exact h)]
      simp only [lookupA]
      rw [if_neg (by exact h)]
      exact ih

theorem lookupA_setA_ne {κ β : Type} [DecidableEq κ] {k k' : κ} (h : k' ≠ k)
    (v : β) (l : List (κ × β)) : lookupA k' (setA k v l) = lookupA k' l := by
  induction l with
  | nil =>
    simp only [setA, lookupA]
    rw [if_neg (fun hh : k = k' => h hh.symm)]
  | cons x xs ih =>
    by_cases hx : x.1 = k
    · simp only [setA]
      rw [if_pos (by exact hx)]
      simp only [lookupA]
      rw [if_neg (fun hh : k = k' => h hh.symm),
        if_neg (by rw [hx]; exact fun hh : k = k' => h hh.symm)]
    · simp only [setA]
      rw [if_neg (by exact hx)]
      simp only [lookupA]
      by_cases hk' : x.1 = k'
      · rw [if_pos (by exact hk'), if_pos (by exact hk')]
      · rw [if_neg (by exact hk'), if_neg (by exact hk')]
        exact ih

theorem lookupA_eq_none_iff {κ β : Type} [DecidableEq κ] {k : κ}
    {l : List (κ × β)} : lookupA k l = none ↔ k ∉ l.map Prod.fst := by
  induction l with
  | nil => simp [lookupA]
  | cons x xs ih =>
    simp only [lookupA, List.map_cons, List.mem_cons]
    by_cases h : x.1 = k
    · simp [h]
    · rw [if_neg (by exact h)]
      simp only [ih]
      constructor
      · intro hn hmem
        rcases hmem with hmem | hmem
        · exact h hmem.symm
        · exact hn hmem
      · intro hn hmem
        exact hn (Or.inr hmem)

theorem mem_of_lookupA {κ β : Type} [DecidableEq κ] {k : κ} {v : β}
    {l : List (κ × β)} (h : lookupA k l = some v) : (k, v) ∈ l := by
  induction l with
  | nil => simp [lookupA] at h
  | cons x xs ih =>
    simp only [lookupA] at h
    by_cases hx : x.1 = k
    · rw [if_pos hx] at h
      obtain rfl := Option.some_injective _ h
      have hxx : (k, x.2) = x := by
        cases x
        simp_all
      rw [hxx]
      exact List.mem_cons_self _ _
    · rw [if_neg hx] at h
      exact List.mem_cons_of_mem x (ih h)

theorem lookupA_of_mem_nodup {κ β : Type} [DecidableEq κ] {k : κ} {v : β}
    {l : List (κ × β)} (hnd : (l.map Prod.fst).Nodup) (h : (k, v) ∈ l) :
    lookupA k l = some v := by
  induction l with
  | nil => simp at h
  | cons x xs ih =>
    simp only [List.map_cons, List.nodup_cons] at hnd
    rcases List.mem_cons.mp h with rfl | hmem
    · simp [lookupA]
    · have hk : x.1 ≠ k := by
        intro hx
        exact hnd.1 (by rw [hx]; exact List.mem_map.mpr ⟨(k, v), hmem, rfl⟩)
      simp only [lookupA]
      rw [if_neg hk]
      exact ih hnd.2 hmem

theorem map_fst_setA_mem {κ β : Type} [DecidableEq κ] {k : κ} (v : β)
    {l : List (κ × β)} (h : k ∈ l.map Prod.fst) :
    (setA k v l).map Prod.fst = l.map Prod.fst := by
  induction l with
  | nil => simp at h
  | cons x xs ih =>
    by_cases hx : x.1 = k
    · simp only [setA]
      rw [if_pos (by exact hx)]
      simp [hx]
    · simp only [setA]
      rw [if_neg (by exact hx)]
      simp only [List.map_cons]
      simp only [List.map_cons, List.mem_cons] at h
      rcases h with h | h
      · exact absurd h.symm hx
      · rw [ih h]

theorem map_fst_setA_not_mem {κ β : Type} [DecidableEq κ] {k : κ} (v : β)
    {l : List (κ × β)} (h : k ∉ l.map Prod.fst) :
    (setA k v l).map Prod.fst = l.map Prod.fst ++ [k] := by
  induction l with
  | nil => simp [setA]
  | cons x xs ih =>
    simp only [List.map_cons, List.mem_cons] at h
    push_neg at h
    simp only [setA]
    rw [if_neg (fun hh => h.1 hh.symm)]
    simp only [List.map_cons, List.cons_append]
    rw [ih h.2]

theorem nodup_fst_setA {κ β : Type} [DecidableEq κ] (k : κ) (v : β)
    {l : List (κ × β)} (h : (l.map Prod.fst).Nodup) :
    ((setA k v l).map Prod.fst).Nodup := by
  by_cases hk : k ∈ l.map Prod.fst
  · rw [map_fst_setA_mem v hk]
    exact h
  · rw [map_fst_setA_not_mem v hk]
    simp only [List.nodup_append, List.nodup_cons]
    exact ⟨h, by simp, by simpa [List.disjoint_singleton] using hk⟩

theorem mem_setA_elim {κ β : Type} [DecidableEq κ] {k : κ} {v : β}
    {x : κ × β} {l : List (κ × β)} (h : x ∈ setA k v l) :
    x = (k, v) ∨ x ∈ l := by
  induction l with
  | nil => simpa [setA] using h
  | cons y ys ih =>
    simp only [setA] at h
    by_cases hy : y.1 = k
    · rw [if_pos (by exact hy)] at h
      rcases List.mem_cons.mp h with rfl | hmem
      · exact Or.inl rfl
      · exact Or.inr (List.mem_cons_of_mem y hmem)
    · rw [if_neg (by exact hy)] at h
      rcases List.mem_cons.mp h with rfl | hmem
      · exact Or.inr (List.mem_cons_self _ _)
      · rcases ih hmem with h' | h'
        · exact Or.inl h'
        · exact Or.inr (List.mem_cons_of_mem y h')

/-! ## Lemmas on the aggregation step -/

theorem lookupA_ensurePair (st : Agg) (m u : ℤ) :
    lookupA u (ensurePair st m u) = some (cntAt st m u) := by
  unfold ensurePair cntAt
  cases hm : lookupA m st with
  | none => simp [lookupA_setA_self]
  | some users =>
    cases hu : lookupA u users with
    | none => simp [hu, lookupA_setA_self]
    | some c => simp [hu]

theorem lookupA_ensurePair_ne (st : Agg) (m u : ℤ) {u' : ℤ} (h : u' ≠ u) :
    lookupA u' (ensurePair st m u) =
      (lookupA m st).bind fun users => lookupA u' users := by
  unfold ensurePair
  cases hm : lookupA m st with
  | none =>
    simp only [Option.bind]
    rw [lookupA_setA_ne h]
    rfl
  | some users =>
    dsimp only
    cases hu : lookupA u users with
    | none => exact lookupA_setA_ne h initCounts users
    | some c => rfl

theorem nodup_ensurePair {st : Agg} (hst : aggNodup st) (m u : ℤ) :
    ((ensurePair st m u).map Prod.fst).Nodup := by
  unfold ensurePair
  cases hm : lookupA m st with
  | none => simp [setA]
  | some users =>
    have husers : (users.map Prod.fst).Nodup := hst.2 (m, users) (mem_of_lookupA hm)
    dsimp only
    cases hu : lookupA u users with
    | none => exact nodup_fst_setA u initCounts husers
    | some c => exact husers

theorem lookup2_step_self (st : Agg) (m u : ℤ) (cts' : ActionCounts) :
    (lookupA m (setA m (setA u cts' (ensurePair st m u)) st)).bind
      (fun users => lookupA u users) = some cts' := by
  rw [lookupA_setA_self]
  show lookupA u (setA u cts' (ensurePair st m u)) = some cts'
  exact lookupA_setA_self u cts' _

theorem lookup2_step_ne (st : Agg) (m u : ℤ) (cts' : ActionCounts)
    {m' u' : ℤ} (h : ¬(m' = m ∧ u' = u)) :
    (lookupA m' (setA m (setA u cts' (ensurePair st m u)) st)).bind
      (fun users => lookupA u' users) =
    (lookupA m' st).bind fun users => lookupA u' users := by
  by_cases hm : m' = m
  · subst hm
    have hu : u' ≠ u := fun huu => h ⟨rfl, huu⟩
    rw [lookupA_setA_self]
    show lookupA u' (setA u cts' (ensurePair st m' u)) = _
    rw [lookupA_setA_ne hu]
    exact lookupA_ensurePair_ne st m' u hu
  · rw [lookupA_setA_ne hm]

theorem cntAt_step_self (st : Agg) (m u : ℤ) (cts' : ActionCounts) :
    cntAt (setA m (setA u cts' (ensurePair st m u)) st) m u = cts' := by
  unfold cntAt
  rw [lookup2_step_self]
  rfl

theorem cntAt_step_ne (st : Agg) (m u : ℤ) (cts' : ActionCounts)
    {m' u' : ℤ} (h : ¬(m' = m ∧ u' = u)) :
    cntAt (setA m (setA u cts' (ensurePair st m u)) st) m' u' = cntAt st m' u' := by
  unfold cntAt
  rw [lookup2_step_ne st m u cts' h]

theorem pairMemB_step_self (st : Agg) (m u : ℤ) (cts' : ActionCounts) :
    pairMemB (setA m (setA u cts' (ensurePair st m u)) st) m u = true := by
  unfold pairMemB
  rw [lookup2_step_self]
  rfl

theorem pairMemB_step_ne (st : Agg) (m u : ℤ) (cts' : ActionCounts)
    {m' u' : ℤ} (h : ¬(m' = m ∧ u' = u)) :
    pairMemB (setA m (setA u cts' (ensurePair st m u)) st) m' u' =
      pairMemB st m' u' := by
  unfold pairMemB
  rw [lookup2_step_ne st m u cts' h]

theorem aggNodup_step {st : Agg} (hst : aggNodup st) (m u : ℤ)
    (cts' : ActionCounts) :
    aggNodup (setA m (setA u cts' (ensurePair st m u)) st) := by
  constructor
  · exact nodup_fst_setA m _ hst.1
  · intro mu hmu
    rcases mem_setA_elim hmu with rfl | hold
    · exact nodup_fst_setA u cts' (nodup_ensurePair hst m u)
    · exact hst.2 mu hold

theorem pcount_append_self (log : List Event) (P : List Triple) (t : Triple) :
    pcount log (P ++ [t]) t = countOf log t := by
  simp [pcount]

theorem pcount_append_ne (log : List Event) (P : List Triple) {t t' : Triple}
    (h : t' ≠ t) : pcount log (P ++ [t]) t' = pcount log P t' := by
  unfold pcount
  have : t' ∈ P ++ [t] ↔ t' ∈ P := by simp [List.mem_append, h]
  by_cases hp : t' ∈ P
  · rw [if_pos (this.mpr hp), if_pos hp]
  · rw [if_neg (fun hh => hp (this.mp hh)), if_neg hp]

theorem pcount_not_mem (log : List Event) {P : List Triple} {t : Triple}
    (h : t ∉ P) : pcount log P t = 0 := by
  simp [pcount, h]

theorem bump_ok_cases {c c' : ActionCounts} {a : String} {n : ℕ}
    (h : c.bump a n = Except.ok c') :
    (a = "buy" ∧ c' = ⟨c.buy + n, c.addToCart, c.details⟩) ∨
    (a = "addToCart" ∧ c' = ⟨c.buy, c.addToCart + n, c.details⟩) ∨
    (a = "details" ∧ c' = ⟨c.buy, c.addToCart, c.details + n⟩) := by
  unfold ActionCounts.bump at h
  split_ifs at h with h1 h2 h3
  · left
    obtain rfl := Except.ok.inj h
    exact ⟨h1, rfl⟩
  · right; left
    obtain rfl := Except.ok.inj h
    exact ⟨h2, rfl⟩
  · right; right
    obtain rfl := Except.ok.inj h
    exact ⟨h3, rfl⟩

theorem bump_ok_valid {c c' : ActionCounts} {a : String} {n : ℕ}
    (h : c.bump a n = Except.ok c') :
    a = "buy" ∨ a = "addToCart" ∨ a = "details" := by
  rcases bump_ok_cases h with ⟨h1, -⟩ | ⟨h2, -⟩ | ⟨h3, -⟩
  · exact Or.inl h1
  · exact Or.inr (Or.inl h2)
  · exact Or.inr (Or.inr h3)

theorem pairs_inv_step {P : List Triple} {st : Agg}
    (hInv2 : ∀ m' u' : ℤ, pairMemB st m' u' = true ↔ ∃ x : String, (m', u', x) ∈ P)
    (m u : ℤ) (a : String) (c' : ActionCounts) :
    ∀ m' u' : ℤ, pairMemB (setA m (setA u c' (ensurePair st m u)) st) m' u' = true ↔
      ∃ x : String, (m', u', x) ∈ P ++ [(m, u, a)] := by
  intro m' u'
  by_cases hmu : m' = m ∧ u' = u
  · obtain ⟨rfl, rfl⟩ := hmu
    rw [pairMemB_step_self]
    constructor
    · intro _
      exact ⟨a, by simp⟩
    · intro _
      rfl
  · rw [pairMemB_step_ne st m u c' hmu, hInv2 m' u']
    constructor
    · rintro ⟨x, hx⟩
      exact ⟨x, by simp [hx]⟩
    · rintro ⟨x, hx⟩
      rcases List.mem_append.mp hx with hx | hx
      · exact ⟨x, hx⟩
      · exfalso
        simp only [List.mem_singleton, Prod.mk.injEq] at hx
        exact hmu ⟨hx.1, hx.2.1⟩

theorem counts_inv_step_other {log : List Event} {P : List Triple} {st : Agg}
    (hInv3 : ∀ m' u' : ℤ, (cntAt st m' u').buy = pcount log P (m', u', "buy") ∧
      (cntAt st m' u').addToCart = pcount log P (m', u', "addToCart") ∧
      (cntAt st m' u').details = pcount log P (m', u', "details"))
    {m u : ℤ} (a : String) (c' : ActionCounts)
    {m' u' : ℤ} (hmu : ¬(m' = m ∧ u' = u)) :
    (cntAt (setA m (setA u c' (ensurePair st m u)) st) m' u').buy
        = pcount log (P ++ [(m, u, a)]) (m', u', "buy") ∧
    (cntAt (setA m (setA u c' (ensurePair st m u)) st) m' u').addToCart
        = pcount log (P ++ [(m, u, a)]) (m', u', "addToCart") ∧
    (cntAt (setA m (setA u c' (ensurePair st m u)) st) m' u').details
        = pcount log (P ++ [(m, u, a)]) (m', u', "details") := by
  rw [cntAt_step_ne st m u c' hmu]
  have hne : ∀ x : String, ((m', u', x) : Triple) ≠ (m, u, a) := by
    intro x heq
    apply hmu
    exact ⟨congrArg (fun p : Triple => p.1) heq,
           congrArg (fun p : Triple => p.2.1) heq⟩
  rw [pcount_append_ne log P (hne "buy"), pcount_append_ne log P (hne "addToCart"),
    pcount_append_ne log P (hne "details")]
  exact hInv3 m' u'

theorem stepTriple_inv {log : List Event} {P : List Triple} {st st' : Agg}
    {m u : ℤ} {a : String} (hInv : AggInv log P st) (hnotin : (m, u, a) ∉ P)
    (hok : stepTriple st (m, u, a) (countOf log (m, u, a)) = Except.ok st') :
    AggInv log (P ++ [(m, u, a)]) st' := by
  obtain ⟨hnd, hpairs, hcnt⟩ := hInv
  unfold stepTriple at hok
  dsimp only at hok
  rw [lookupA_ensurePair] at hok
  dsimp only [Option.getD_some] at hok
  cases hb : (cntAt st m u).bump a (countOf log (m, u, a)) with
  | error e =>
    rw [hb] at hok
    exact absurd hok (by simp [Except.map])
  | ok c' =>
    rw [hb] at hok
    simp only [Except.map, Except.ok.injEq] at hok
    subst hok
    refine ⟨aggNodup_step hnd m u c', pairs_inv_step hpairs m u a c', ?_⟩
    intro m' u'
    by_cases hmu : m' = m ∧ u' = u
    · obtain ⟨rfl, rfl⟩ := hmu
      rw [cntAt_step_self]
      have hc := hcnt m' u'
      rcases bump_ok_cases hb with ⟨ha, rfl⟩ | ⟨ha, rfl⟩ | ⟨ha, rfl⟩ <;> subst ha
      · have h0 : pcount log P (m', u', "buy") = 0 := pcount_not_mem log hnotin
        refine ⟨?_, ?_, ?_⟩
        · show (cntAt st m' u').buy + countOf log (m', u', "buy") = _
          rw [pcount_append_self log P, hc.1, h0]
          omega
        · show (cntAt st m' u').addToCart = _
          rw [pcount_append_ne log P (by simp), hc.2.1]
        · show (cntAt st m' u').details = _
          rw [pcount_append_ne log P (by simp), hc.2.2]
      · have h0 : pcount log P (m', u', "addToCart") = 0 := pcount_not_mem log hnotin
        refine ⟨?_, ?_, ?_⟩
        · show (cntAt st m' u').buy = _
          rw [pcount_append_ne log P (by simp), hc.1]
        · show (cntAt st m' u').addToCart + countOf log (m', u', "addToCart") = _
          rw [pcount_append_self log P, hc.2.1, h0]
          omega
        · show (cntAt st m' u').details = _
          rw [pcount_append_ne log P (by simp), hc.2.2]
      · have h0 : pcount log P (m', u', "details") = 0 := pcount_not_mem log hnotin
        refine ⟨?_, ?_, ?_⟩
        · show (cntAt st m' u').buy = _
          rw [pcount_append_ne log P (by simp), hc.1]
        · show (cntAt st m' u').addToCart = _
          rw [pcount_append_ne log P (by simp), hc.2.1]
        · show (cntAt st m' u').details + countOf log (m', u', "details") = _
          rw [pcount_append_self log P, hc.2.2, h0]
          omega
    · exact counts_inv_step_other hcnt a c' hmu

theorem stepTriple_ok_valid {st st' : Agg} {t : Triple} {n : ℕ}
    (h : stepTriple st t n = .ok st') :
    t.2.2 = "buy" ∨ t.2.2 = "addToCart" ∨ t.2.2 = "details" := by
  unfold stepTriple at h
  dsimp only at h
  cases hb : ((lookupA t.2.1 (ensurePair st t.1 t.2.1)).getD initCounts).bump t.2.2 n with
  | error e =>
    rw [hb] at h
    exact absurd h (by simp [Except.map])
  | ok c' => exact bump_ok_valid hb

theorem loopAgg_inv {log : List Event} :
    ∀ (ts P : List Triple) (st : Agg), AggInv log P st → (P ++ ts).Nodup →
    ∀ {st' : Agg}, loopAgg log ts st = Except.ok st' → AggInv log (P ++ ts) st'
  | [], P, st, hInv, _, st', hok => by
    obtain rfl := Except.ok.inj hok
    simpa using hInv
  | t :: ts, P, st, hInv, hnd, st', hok => by
    unfold loopAgg at hok
    cases hs : stepTriple st t (countOf log t) with
    | error e =>
      rw [hs] at hok
      exact absurd hok (by simp)
    | ok st₁ =>
      rw [hs] at hok
      obtain ⟨m, u, a⟩ := t
      have hnotin : (m, u, a) ∉ P := by
        have hdisj := List.disjoint_of_nodup_append hnd
        intro hmem
        exact hdisj hmem (by simp)
      have hInv1 := stepTriple_inv hInv hnotin hs
      have hnd1 : ((P ++ [(m, u, a)]) ++ ts).Nodup := by
        simpa [List.append_assoc] using hnd
      have hres := loopAgg_inv ts (P ++ [(m, u, a)]) st₁ hInv1 hnd1 hok
      simpa [List.append_assoc] using hres

theorem loopAgg_ok_valid {log : List Event} :
    ∀ (ts : List Triple) (st st' : Agg), loopAgg log ts st = Except.ok st' →
    ∀ t ∈ ts, t.2.2 = "buy" ∨ t.2.2 = "addToCart" ∨ t.2.2 = "details"
  | [], st, st', _, t, ht => absurd ht (List.not_mem_nil t)
  | t₀ :: ts, st, st', hok, t, ht => by
    unfold loopAgg at hok
    cases hs : stepTriple st t₀ (countOf log t₀) with
    | error e =>
      rw [hs] at hok
      exact absurd hok (by simp)
    | ok st₁ =>
      rw [hs] at hok
      rcases List.mem_cons.mp ht with rfl | hmem
      · exact stepTriple_ok_valid hs
      · exact loopAgg_ok_valid ts st₁ st' hok t hmem

theorem nodup_countsIndex (log : List Event) : (countsIndex log).Nodup :=
  nodup_sortLe tripleLe _ (List.nodup_dedup _)

theorem mem_countsIndex {log : List Event} {t : Triple} :
    t ∈ countsIndex log ↔ ∃ e ∈ log, tripleOf e = t := by
  rw [countsIndex, mem_sortLe, List.mem_dedup, List.mem_map]

theorem buildAgg_inv {log : List Event} {agg : Agg}
    (h : buildAgg log = Except.ok agg) : AggInv log (countsIndex log) agg := by
  have h0 : AggInv log [] [] := by
    refine ⟨⟨by simp, by simp⟩, ?_, ?_⟩
    · intro m u
      simp [pairMemB, lookupA]
    · intro m u
      simp [cntAt, lookupA, pcount, initCounts]
  have hnd : (([] : List Triple) ++ countsIndex log).Nodup := by
    simpa using nodup_countsIndex log
  have hres := loopAgg_inv (countsIndex log) [] [] h0 hnd h
  simpa using hres

theorem buildAgg_ok_valid {log : List Event} {agg : Agg}
    (h : buildAgg log = Except.ok agg) :
    ∀ t ∈ countsIndex log,
      t.2.2 = "buy" ∨ t.2.2 = "addToCart" ∨ t.2.2 = "details" :=
  loopAgg_ok_valid (countsIndex log) [] agg h

/-! ## From the aggregation state to the ratings table -/

theorem rawScore_eq (c : ActionCounts) :
    rawScore c = c.buy * 100 + c.addToCart * 50 + c.details * 15 := by
  have h : rawScore c = ((0 + c.buy * 100) + c.addToCart * 50) + c.details * 15 := rfl
  rw [h]
  omega

theorem pcount_countsIndex (log : List Event) (t : Triple) :
    pcount log (countsIndex log) t = countOf log t := by
  unfold pcount
  by_cases h : t ∈ countsIndex log
  · rw [if_pos h]
  · rw [if_neg h]
    symm
    rw [countOf, List.length_eq_zero, List.filter_eq_nil_iff]
    intro e he
    simp only [decide_eq_true_eq]
    intro hte
    exact h (mem_countsIndex.mpr ⟨e, he, hte⟩)

theorem cntAt_final {log : List Event} {agg : Agg}
    (h : buildAgg log = Except.ok agg) (m u : ℤ) :
    (cntAt agg m u).buy = logCount log m u "buy" ∧
    (cntAt agg m u).addToCart = logCount log m u "addToCart" ∧
    (cntAt agg m u).details = logCount log m u "details" := by
  obtain ⟨-, -, hcnt⟩ := buildAgg_inv h
  obtain ⟨h1, h2, h3⟩ := hcnt m u
  rw [h1, h2, h3, pcount_countsIndex, pcount_countsIndex, pcount_countsIndex]
  exact ⟨rfl, rfl, rfl⟩

theorem mem_agg_cnt {st : Agg} (h : aggNodup st) {mu : ℤ × UserAgg}
    {uc : ℤ × ActionCounts} (hmu : mu ∈ st) (huc : uc ∈ mu.2) :
    uc.2 = cntAt st mu.1 uc.1 := by
  have h1 : lookupA mu.1 st = some mu.2 := lookupA_of_mem_nodup h.1 hmu
  have h2 : lookupA uc.1 mu.2 = some uc.2 :=
    lookupA_of_mem_nodup (h.2 mu hmu) huc
  rw [cntAt, h1]
  simp [h2]

theorem mem_raw_ratings {agg : Agg} {r : ℤ × ℤ × ℕ} :
    r ∈ raw_ratings agg ↔
      ∃ mu ∈ agg, ∃ uc ∈ mu.2, r = (mu.1, uc.1, rawScore uc.2) := by
  unfold raw_ratings
  rw [mem_listBind]
  simp only [List.mem_map]
  constructor
  · rintro ⟨mu, hmu, uc, huc, rfl⟩
    exact ⟨mu, hmu, uc, huc, rfl⟩
  · rintro ⟨mu, hmu, uc, huc, rfl⟩
    exact ⟨mu, hmu, uc, huc, rfl⟩

theorem aggPairs_fst {st : Agg} {x : ℤ × ℤ} (h : x ∈ aggPairs st) :
    x.1 ∈ st.map Prod.fst := by
  rw [aggPairs, mem_listBind] at h
  obtain ⟨mu, hmu, hx⟩ := h
  simp only [List.mem_map] at hx
  obtain ⟨uc, -, rfl⟩ := hx
  exact List.mem_map.mpr ⟨mu, hmu, rfl⟩

theorem nodup_aggPairs {st : Agg} (h : aggNodup st) : (aggPairs st).Nodup := by
  induction st with
  | nil => simp [aggPairs, listBind]
  | cons mu rest ih =>
    obtain ⟨hnd, hinner⟩ := h
    simp only [List.map_cons, List.nodup_cons] at hnd
    have hrest : aggNodup rest :=
      ⟨hnd.2, fun x hx => hinner x (List.mem_cons_of_mem mu hx)⟩
    show (mu.2.map (fun uc => (mu.1, uc.1)) ++ aggPairs rest).Nodup
    rw [List.nodup_append]
    refine ⟨?_, ih hrest, ?_⟩
    · have hmm : mu.2.map (fun uc => (mu.1, uc.1)) =
          (mu.2.map Prod.fst).map fun u => (mu.1, u) := by
        rw [List.map_map]
        rfl
      rw [hmm]
      exact (hinner mu (List.mem_cons_self _ _)).map
        fun a b hab => (Prod.ext_iff.mp hab).2
    · intro x hx hx'
      have hx1 : x.1 = mu.1 := by
        simp only [List.mem_map] at hx
        obtain ⟨uc, -, rfl⟩ := hx
        rfl
      exact hnd.1 (hx1 ▸ aggPairs_fst hx')

theorem aggPairs_iff_pairMemB {st : Agg} (h : aggNodup st) (m u : ℤ) :
    (m, u) ∈ aggPairs st ↔ pairMemB st m u = true := by
  constructor
  · intro hmem
    rw [aggPairs, mem_listBind] at hmem
    obtain ⟨mu, hmu, hx⟩ := hmem
    simp only [List.mem_map] at hx
    obtain ⟨uc, huc, heq⟩ := hx
    have hm : mu.1 = m := congrArg Prod.fst heq
    have hu : uc.1 = u := congrArg Prod.snd heq
    have h1 : lookupA m st = some mu.2 := by
      rw [← hm]
      exact lookupA_of_mem_nodup h.1 hmu
    have h2 : lookupA u mu.2 = some uc.2 := by
      rw [← hu]
      exact lookupA_of_mem_nodup (h.2 mu hmu) huc
    unfold pairMemB
    rw [h1]
    simp [h2]
  · intro hb
    unfold pairMemB at hb
    cases hm : lookupA m st with
    | none =>
      rw [hm] at hb
      simp at hb
    | some users =>
      rw [hm] at hb
      cases hu : lookupA u users with
      | none =>
        rw [Option.some_bind, hu] at hb
        simp at hb
      | some c =>
        rw [aggPairs, mem_listBind]
        exact ⟨(m, users), mem_of_lookupA hm,
          List.mem_map.mpr ⟨(u, c), mem_of_lookupA hu, rfl⟩⟩

theorem map_fst_raw (agg : Agg) :
    (raw_ratings agg).map (fun r => (r.1, r.2.1)) = aggPairs agg := by
  unfold raw_ratings aggPairs
  rw [map_listBind]
  apply listBind_congr
  intro mu _
  rw [List.map_map]
  rfl

theorem foldl_max_init (rr : List (ℤ × ℤ × ℕ)) (a : ℕ) :
    a ≤ rr.foldl (fun acc r => if acc < r.2.2 then r.2.2 else acc) a := by
  induction rr generalizing a with
  | nil => exact le_refl a
  | cons x xs ih =>
    show a ≤ xs.foldl _ (if a < x.2.2 then x.2.2 else a)
    by_cases h : a < x.2.2
    · rw [if_pos h]
      exact le_trans (le_of_lt h) (ih x.2.2)
    · rw [if_neg h]
      exact ih a

theorem foldl_max_mem (rr : List (ℤ × ℤ × ℕ)) (a : ℕ) :
    ∀ x ∈ rr, x.2.2 ≤ rr.foldl (fun acc r => if acc < r.2.2 then r.2.2 else acc) a := by
  induction rr generalizing a with
  | nil =>
    intro x hx
    simp at hx
  | cons y ys ih =>
    intro x hx
    rcases List.mem_cons.mp hx with rfl | hmem
    · show x.2.2 ≤ ys.foldl _ (if a < x.2.2 then x.2.2 else a)
      refine le_trans ?_ (foldl_max_init ys _)
      by_cases h : a < x.2.2
      · rw [if_pos h]
      · rw [if_neg h]
        omega
    · exact ih _ x hmem

theorem foldl_max_cases (rr : List (ℤ × ℤ × ℕ)) (a : ℕ) :
    rr.foldl (fun acc r => if acc < r.2.2 then r.2.2 else acc) a = a ∨
    ∃ x ∈ rr, rr.foldl (fun acc r => if acc < r.2.2 then r.2.2 else acc) a = x.2.2 := by
  induction rr generalizing a with
  | nil => exact Or.inl rfl
  | cons y ys ih =>
    rw [show (y :: ys).foldl (fun acc r => if acc < r.2.2 then r.2.2 else acc) a =
      ys.foldl (fun acc r => if acc < r.2.2 then r.2.2 else acc)
        (if a < y.2.2 then y.2.2 else a) from rfl]
    by_cases h : a < y.2.2
    · rw [if_pos h]
      rcases ih y.2.2 with h' | ⟨x, hx, h'⟩
      · exact Or.inr ⟨y, by simp, h'⟩
      · exact Or.inr ⟨x, by simp [hx], h'⟩
    · rw [if_neg h]
      rcases ih a with h' | ⟨x, hx, h'⟩
      · exact Or.inl h'
      · exact Or.inr ⟨x, by simp [hx], h'⟩

theorem maxRawOf_ratingsTable (rr : List (ℤ × ℤ × ℕ)) :
    maxRawOf (ratingsTable rr) = max_rating rr := by
  unfold maxRawOf ratingsTable max_rating
  rw [List.foldl_map]

theorem mem_ratingsTable {rr : List (ℤ × ℤ × ℕ)} {x : RatingRow} :
    x ∈ ratingsTable rr ↔
      ∃ r ∈ rr, x = ⟨r.1, r.2.1, r.2.2, (10 : ℚ) * (r.2.2 : ℚ) / (max_rating rr : ℚ)⟩ := by
  unfold ratingsTable
  simp only [List.mem_map]
  constructor
  · rintro ⟨r, hr, rfl⟩
    exact ⟨r, hr, rfl⟩
  · rintro ⟨r, hr, rfl⟩
    exact ⟨r, hr, rfl⟩

theorem ratings_map_pairKey (rr : List (ℤ × ℤ × ℕ)) :
    (ratingsTable rr).map pairKeyOf = rr.map fun r => (r.1, r.2.1) := by
  unfold ratingsTable
  rw [List.map_map]
  rfl

theorem deriveRatings_ok {log : List Event} {rs : List RatingRow}
    (h : deriveRatings log = Except.ok rs) :
    ∃ agg, buildAgg log = Except.ok agg ∧ rs = ratingsTable (raw_ratings agg) := by
  unfold deriveRatings at h
  cases hb : buildAgg log with
  | error e =>
    rw [hb] at h
    exact absurd h (by simp [Except.map])
  | ok agg =>
    rw [hb] at h
    simp only [Except.map, Except.ok.injEq] at h
    exact ⟨agg, rfl, h.symm⟩

/-! ## Claim theorems: Implicit Rating Deriver -/

/-- C5: for every non-empty action log the deriver accepts, every computed
rating satisfies 0 ≤ rating ≤ 10, a row with maximal raw score receives
rating exactly 10, and there is exactly one rating row per (item, user)
pair that has at least one recorded action. -/
theorem implicit_rating_bounds (log : List Event) (rs : List RatingRow)
    (h : deriveRatings log = Except.ok rs) (hne : log ≠ []) :
    (∀ r ∈ rs, 0 ≤ r.rating ∧ r.rating ≤ 10) ∧
    (∃ r ∈ rs, (∀ r' ∈ rs, r'.rawRating ≤ r.rawRating) ∧ r.rating = 10) ∧
    (rs.map pairKeyOf).Nodup ∧
    (∀ m u : ℤ, (m, u) ∈ rs.map pairKeyOf ↔
      ∃ e ∈ log, e.movieId = m ∧ e.userId = u) := by
  obtain ⟨agg, hagg, rfl⟩ := deriveRatings_ok h
  obtain ⟨hnd, hpairs, -⟩ := buildAgg_inv hagg
  have hmax_eq : max_rating (raw_ratings agg) =
      (raw_ratings agg).foldl (fun acc r => if acc < r.2.2 then r.2.2 else acc) 0 := rfl
  have hkey : (ratingsTable (raw_ratings agg)).map pairKeyOf = aggPairs agg := by
    rw [ratings_map_pairKey, map_fst_raw]
  have hpair_iff : ∀ m u : ℤ, (m, u) ∈ aggPairs agg ↔
      ∃ e ∈ log, e.movieId = m ∧ e.userId = u := by
    intro m u
    rw [aggPairs_iff_pairMemB hnd, hpairs m u]
    constructor
    · rintro ⟨a, ha⟩
      obtain ⟨e, he, hte⟩ := mem_countsIndex.mp ha
      exact ⟨e, he, congrArg (fun p : Triple => p.1) hte,
        congrArg (fun p : Triple => p.2.1) hte⟩
    · rintro ⟨e, he, hm, hu⟩
      exact ⟨e.action, mem_countsIndex.mpr ⟨e, he, by rw [tripleOf, hm, hu]⟩⟩
  have hM15 : 15 ≤ max_rating (raw_ratings agg) := by
    obtain ⟨e, he⟩ := List.exists_mem_of_ne_nil log hne
    have hmem : (e.movieId, e.userId) ∈ aggPairs agg :=
      (hpair_iff e.movieId e.userId).mpr ⟨e, he, rfl, rfl⟩
    rw [aggPairs, mem_listBind] at hmem
    obtain ⟨mu, hmu, hx⟩ := hmem
    simp only [List.mem_map] at hx
    obtain ⟨uc, huc, heq⟩ := hx
    have hraw : (mu.1, uc.1, rawScore uc.2) ∈ raw_ratings agg :=
      mem_raw_ratings.mpr ⟨mu, hmu, uc, huc, rfl⟩
    have hle := foldl_max_mem (raw_ratings agg) 0 _ hraw
    rw [← hmax_eq] at hle
    have hcnt := mem_agg_cnt hnd hmu huc
    have hm1 : mu.1 = e.movieId := congrArg Prod.fst heq
    have hu1 : uc.1 = e.userId := congrArg Prod.snd heq
    have hidx : tripleOf e ∈ countsIndex log := mem_countsIndex.mpr ⟨e, he, rfl⟩
    have hval := buildAgg_ok_valid hagg _ hidx
    have hcount : 1 ≤ countOf log (tripleOf e) := by
      rw [countOf]
      have hmem' : e ∈ log.filter fun e' => tripleOf e' = tripleOf e := by
        simp [List.mem_filter, he]
      have := List.length_pos.mpr (List.ne_nil_of_mem hmem')
      omega
    obtain ⟨hb, hc, hd⟩ := cntAt_final hagg e.movieId e.userId
    have hscore : 15 ≤ rawScore uc.2 := by
      rw [hcnt, hm1, hu1, rawScore_eq]
      rcases hval with hv | hv | hv
      · have ht : ((e.movieId, e.userId, "buy") : Triple) = tripleOf e := by
          simp [tripleOf, ← hv]
        have h1 : 1 ≤ (cntAt agg e.movieId e.userId).buy := by
          rw [hb]
          show 1 ≤ countOf log (e.movieId, e.userId, "buy")
          rw [ht]
          exact hcount
        omega
      · have ht : ((e.movieId, e.userId, "addToCart") : Triple) = tripleOf e := by
          simp [tripleOf, ← hv]
        have h1 : 1 ≤ (cntAt agg e.movieId e.userId).addToCart := by
          rw [hc]
          show 1 ≤ countOf log (e.movieId, e.userId, "addToCart")
          rw [ht]
          exact hcount
        omega
      · have ht : ((e.movieId, e.userId, "details") : Triple) = tripleOf e := by
          simp [tripleOf, ← hv]
        have h1 : 1 ≤ (cntAt agg e.movieId e.userId).details := by
          rw [hd]
          show 1 ≤ countOf log (e.movieId, e.userId, "details")
          rw [ht]
          exact hcount
        omega
    have hle2 : rawScore uc.2 ≤ max_rating (raw_ratings agg) := hle
    omega
  have hMpos : 0 < max_rating (raw_ratings agg) := by omega
  have hMposQ : (0 : ℚ) < (max_rating (raw_ratings agg) : ℚ) := by
    exact_mod_cast hMpos
  refine ⟨?_, ?_, ?_, ?_⟩
  · intro r hr
    obtain ⟨x, hx, rfl⟩ := mem_ratingsTable.mp hr
    have hxle := foldl_max_mem (raw_ratings agg) 0 x hx
    rw [← hmax_eq] at hxle
    constructor
    · show 0 ≤ (10 : ℚ) * (x.2.2 : ℚ) / (max_rating (raw_ratings agg) : ℚ)
      positivity
    · show (10 : ℚ) * (x.2.2 : ℚ) / (max_rating (raw_ratings agg) : ℚ) ≤ 10
      rw [div_le_iff₀ hMposQ]
      have hcast : (x.2.2 : ℚ) ≤ (max_rating (raw_ratings agg) : ℚ) := by
        exact_mod_cast hxle
      linarith
  · rcases foldl_max_cases (raw_ratings agg) 0 with h0 | ⟨x, hx, hxm⟩
    · rw [← hmax_eq] at h0
      omega
    · rw [← hmax_eq] at hxm
      refine ⟨⟨x.1, x.2.1, x.2.2,
        (10 : ℚ) * (x.2.2 : ℚ) / (max_rating (raw_ratings agg) : ℚ)⟩,
        mem_ratingsTable.mpr ⟨x, hx, rfl⟩, ?_, ?_⟩
      · intro r' hr'
        obtain ⟨x', hx', rfl⟩ := mem_ratingsTable.mp hr'
        show x'.2.2 ≤ x.2.2
        have hle' := foldl_max_mem (raw_ratings agg) 0 x' hx'
        rw [← hmax_eq] at hle'
        omega
      · show (10 : ℚ) * (x.2.2 : ℚ) / (max_rating (raw_ratings agg) : ℚ) = 10
        rw [← hxm]
        rw [mul_div_assoc, div_self hMposQ.ne', mul_one]
  · rw [hkey]
    exact nodup_aggPairs hnd
  · intro m u
    rw [hkey]
    exact hpair_iff m u

theorem implicit_rating_bounds_witness :
    (∀ r ∈ [(⟨1, 1, 80, 10⟩ : RatingRow)], 0 ≤ r.rating ∧ r.rating ≤ 10) ∧
    (∃ r ∈ [(⟨1, 1, 80, 10⟩ : RatingRow)],
      (∀ r' ∈ [(⟨1, 1, 80, 10⟩ : RatingRow)], r'.rawRating ≤ r.rawRating) ∧
      r.rating = 10) ∧
    (([(⟨1, 1, 80, 10⟩ : RatingRow)]).map pairKeyOf).Nodup ∧
    (∀ m u : ℤ, (m, u) ∈ ([(⟨1, 1, 80, 10⟩ : RatingRow)]).map pairKeyOf ↔
      ∃ e ∈ exLog, e.movieId = m ∧ e.userId = u) :=
  implicit_rating_bounds exLog [⟨1, 1, 80, 10⟩] deriveRatings_example (by decide)

/-- C6: each rating row's raw score equals the sum over the three action
types of the pair's action count times the fixed weight (buy 100,
addToCart 50, details 15), and its rating equals 10 times the raw score
divided by the dataset-wide maximum raw score.  The witness instantiates
the worked example: two views and one cart-add give raw score 80 and
rating exactly 10 when 80 is the dataset maximum. -/
theorem raw_score_formula (log : List Event) (rs : List RatingRow)
    (h : deriveRatings log = Except.ok rs) :
    ∀ r ∈ rs,
      r.rawRating = logCount log r.movieId r.userId "buy" * 100 +
        logCount log r.movieId r.userId "addToCart" * 50 +
        logCount log r.movieId r.userId "details" * 15 ∧
      r.rating = 10 * (r.rawRating : ℚ) / (maxRawOf rs : ℚ) := by
  obtain ⟨agg, hagg, rfl⟩ := deriveRatings_ok h
  have hnd := (buildAgg_inv hagg).1
  intro r hr
  obtain ⟨x, hx, rfl⟩ := mem_ratingsTable.mp hr
  obtain ⟨mu, hmu, uc, huc, rfl⟩ := mem_raw_ratings.mp hx
  constructor
  · show rawScore uc.2 = _
    have hcnt := mem_agg_cnt hnd hmu huc
    obtain ⟨hb, hc, hd⟩ := cntAt_final hagg mu.1 uc.1
    rw [rawScore_eq, hcnt, hb, hc, hd]
  · show (10 : ℚ) * (rawScore uc.2 : ℚ) /
      (max_rating (raw_ratings agg) : ℚ) = _
    rw [maxRawOf_ratingsTable]

theorem raw_score_formula_witness :
    (⟨1, 1, 80, 10⟩ : RatingRow).rawRating =
      logCount exLog 1 1 "buy" * 100 + logCount exLog 1 1 "addToCart" * 50 +
        logCount exLog 1 1 "details" * 15 ∧
    (⟨1, 1, 80, 10⟩ : RatingRow).rating =
      10 * ((⟨1, 1, 80, 10⟩ : RatingRow).rawRating : ℚ) /
        (maxRawOf [(⟨1, 1, 80, 10⟩ : RatingRow)] : ℚ) :=
  raw_score_formula exLog [⟨1, 1, 80, 10⟩] deriveRatings_example
    ⟨1, 1, 80, 10⟩ (by simp)

/-- C2 counterexample: on the empty action log the Implicit Rating
Deriver does not fail fast: the run returns an ordinary result (the empty
table), not an error condition of any kind. -/
theorem rating_empty_no_failure :
    ¬ ∃ msg : String, deriveRatings [] = Except.error msg := by
  rintro ⟨msg, hmsg⟩
  rw [show deriveRatings [] = Except.ok [] from rfl] at hmsg
  exact Except.noConfusion hmsg

/-- C2 amended: if the action event log is empty, the Implicit Rating
Deriver completes without raising any condition and returns an empty
ratings table; because that table has no rows, the undefined
division-by-zero normalisation is never evaluated and no NaN or undefined
rating value is propagated. -/
theorem rating_empty_ok :
    deriveRatings ([] : List Event) = Except.ok ([] : List RatingRow) := rfl
